import Mathlib

/-!
Verification development for the document-normalization renderer of
AI-Note-Cleaner (`ai_note_cleaner/cli.py`).

The renderer `markdown_to_plain_text` is embedded from the element-tree stage
onward: per the specification, "markup text → element tree" is an external
parser (the `markdown` + BeautifulSoup libraries), so the embedding models the
soup manipulation passes (list bulleting, heading styling, table rendering),
the `get_text` flattening, and the textual cleanup steps, operating on
`List Char` in place of Python strings.  The fragment wrapper
`to_html_preserving_newlines` is embedded in full.
-/

/-- The apostrophe character (escaped by Python's `html.escape` as `&#x27;`). -/
def aposCh : Char := Char.ofNat 39

/-- The ESC control character (`\x1b`), start of an ANSI escape sequence. -/
def escCh : Char := Char.ofNat 27

/-- Python `str.replace(pat, rep)` for a nonempty pattern: scan left to right,
replace each non-overlapping occurrence of `pat` by `rep`, never rescanning
the inserted replacement.  Written with explicit fuel so that the recursion is
structural (each step consumes at least one input character, so fuel equal to
the input length suffices); `replaceAll` below supplies that fuel. -/
def replaceAllF (pat rep : List Char) : Nat → List Char → List Char
  | _, [] => []
  | 0, l => l
  | fuel + 1, c :: rest =>
      if pat ≠ [] ∧ pat.isPrefixOf (c :: rest) then
        rep ++ replaceAllF pat rep fuel ((c :: rest).drop pat.length)
      else
        c :: replaceAllF pat rep fuel rest

/-- Python `str.replace(pat, rep)` (all occurrences, left to right). -/
def replaceAll (pat rep l : List Char) : List Char :=
  replaceAllF pat rep l.length l

theorem replaceAllF_succ_of_le (pat rep : List Char) :
    ∀ (fuel : Nat) (l : List Char), l.length ≤ fuel →
      replaceAllF pat rep (fuel + 1) l = replaceAllF pat rep fuel l := by
  intro fuel
  induction fuel with
  | zero =>
      intro l hl
      have : l = [] := List.length_eq_zero.mp (Nat.le_zero.mp hl)
      subst this
      rfl
  | succ f ih =>
      intro l hl
      cases l with
      | nil => rfl
      | cons c rest =>
          by_cases h : pat ≠ [] ∧ pat.isPrefixOf (c :: rest)
          · have hpat : 1 ≤ pat.length := by
              cases hp : pat with
              | nil => exact absurd hp h.1
              | cons a as => simp
            have hdrop : ((c :: rest).drop pat.length).length ≤ f := by
              simp only [List.length_drop]
              have : (c :: rest).length ≤ f + 1 := hl
              omega
            simp only [replaceAllF, if_pos h]
            rw [ih _ hdrop]
          · have hrest : rest.length ≤ f := by
              have : (c :: rest).length ≤ f + 1 := hl
              simpa using this
            simp only [replaceAllF, if_neg h]
            rw [ih _ hrest]

theorem replaceAllF_eq_of_le (pat rep : List Char) :
    ∀ (fuel : Nat) (l : List Char), l.length ≤ fuel →
      replaceAllF pat rep fuel l = replaceAll pat rep l := by
  intro fuel
  induction fuel with
  | zero =>
      intro l hl
      have : l = [] := List.length_eq_zero.mp (Nat.le_zero.mp hl)
      subst this; rfl
  | succ f ih =>
      intro l hl
      rcases Nat.lt_or_ge l.length (f + 1) with h | h
      · have hle : l.length ≤ f := Nat.lt_succ_iff.mp h
        rw [replaceAllF_succ_of_le pat rep f l hle, ih l hle]
      · have : l.length = f + 1 := Nat.le_antisymm hl h
        rw [replaceAll, this]

/-- Unfolding: `replaceAll` on `[]`. -/
theorem replaceAll_nil (pat rep : List Char) : replaceAll pat rep [] = [] := rfl

/-- Unfolding: `replaceAll` when the pattern matches at the head. -/
theorem replaceAll_pos (pat rep : List Char) (c : Char) (rest : List Char)
    (h : pat ≠ [] ∧ pat.isPrefixOf (c :: rest)) :
    replaceAll pat rep (c :: rest) =
      rep ++ replaceAll pat rep ((c :: rest).drop pat.length) := by
  have hpat : 1 ≤ pat.length := by
    cases hp : pat with
    | nil => exact absurd hp h.1
    | cons a as => simp
  have hdrop : ((c :: rest).drop pat.length).length ≤ rest.length := by
    simp only [List.length_drop]; simp; omega
  show replaceAllF pat rep (rest.length + 1) (c :: rest) = _
  simp only [replaceAllF, if_pos h]
  rw [replaceAllF_eq_of_le pat rep rest.length _ hdrop]

/-- Unfolding: `replaceAll` when the pattern does not match at the head. -/
theorem replaceAll_neg (pat rep : List Char) (c : Char) (rest : List Char)
    (h : ¬(pat ≠ [] ∧ pat.isPrefixOf (c :: rest))) :
    replaceAll pat rep (c :: rest) = c :: replaceAll pat rep rest := by
  show replaceAllF pat rep (rest.length + 1) (c :: rest) = _
  simp only [replaceAllF, if_neg h]
  rfl

/-- Step 7 of `markdown_to_plain_text`: normalize literal checkbox markers by
four sequential `str.replace` calls, in the source's order:
`"- [ ]" → "☐"`, `"[ ]" → "☐"`, `"- [x]" → "☑"`, `"[x]" → "☑"`. -/
def checkbox (l : List Char) : List Char :=
  replaceAll "[x]".data "☑".data
    (replaceAll "- [x]".data "☑".data
      (replaceAll "[ ]".data "☐".data
        (replaceAll "- [ ]".data "☐".data l)))

/-- Python's whitespace set, as used by `str.strip()`: space, tab, newline,
vertical tab, form feed, carriage return (the ASCII whitespace characters;
Python additionally strips some Unicode space code points, none of which
occur anywhere in this development). -/
def pyIsSpace (c : Char) : Bool :=
  c == ' ' || c == '\t' || c == '\n' || c == Char.ofNat 11 || c == Char.ofNat 12 || c == '\r'

/-- Python `str.strip()`: remove leading and trailing whitespace. -/
def pyStrip (l : List Char) : List Char :=
  ((l.dropWhile pyIsSpace).reverse.dropWhile pyIsSpace).reverse

/-- Python `str.upper`, character-wise.  Python applies the full Unicode
uppercase mapping, under which some characters expand to SEVERAL characters
(the unconditional full mappings of Unicode SpecialCasing.txt).  This model
is exact on ASCII (where `Char.toUpper` agrees with Python) and on the
multi-character expansions listed here — `'ß' → "SS"`, the Latin ligatures
`'ﬀ' 'ﬁ' 'ﬂ' 'ﬃ' 'ﬄ' 'ﬅ' 'ﬆ'`, `'ŉ' → "ʼN"` and `'ǰ' → "J̌"`.  The
remaining special-casing code points (Armenian ligatures, Greek
iota-subscript combinations, the `U+1E96`–`U+1E9A` digraphs, Greek
dialytika vowels) and the length-preserving single-character non-ASCII
mappings (such as `'é' → 'É'`) are left unchanged by the model; every
theorem below that relates upper-cased length to original length therefore
assumes ASCII heading text, on which the model coincides with Python
exactly. -/
def pyUpperChar (c : Char) : List Char :=
  if c = 'ß' then ['S', 'S']
  else if c = 'ﬀ' then ['F', 'F']
  else if c = 'ﬁ' then ['F', 'I']
  else if c = 'ﬂ' then ['F', 'L']
  else if c = 'ﬃ' then ['F', 'F', 'I']
  else if c = 'ﬄ' then ['F', 'F', 'L']
  else if c = 'ﬅ' then ['S', 'T']
  else if c = 'ﬆ' then ['S', 'T']
  else if c = 'ŉ' then [Char.ofNat 0x02BC, 'N']
  else if c = 'ǰ' then ['J', Char.ofNat 0x030C]
  else [c.toUpper]

/-- Python `str.upper` on a whole string (see `pyUpperChar` for the model's
scope: exact on ASCII and on the listed multi-character expansions). -/
def pyUpper (l : List Char) : List Char := (l.map pyUpperChar).flatten

/-- The string consists of ASCII characters only (code points `≤ 127`);
on such strings Python's `str.upper` is character-wise and
length-preserving, and the model agrees with it exactly. -/
def allAscii (l : List Char) : Bool := l.all (fun c => decide (c.toNat ≤ 127))

/-- One character of the body of an ANSI escape sequence: the regex class
`[0-9;]` from `re.sub(r"\x1b\[[0-9;]*m", "", text)`. -/
def isCsiChar (c : Char) : Bool := c.isDigit || c == ';'

/-- After `ESC [` has been read: consume `[0-9;]*`, then require `m`;
returns the remainder of the input after the match, or `none` if the
regex `\x1b\[[0-9;]*m` does not match here.  (The match is deterministic:
`m` is not in the class `[0-9;]`, so greediness is irrelevant.) -/
def ansiBody : List Char → Option (List Char)
  | [] => none
  | c :: r => if isCsiChar c then ansiBody r else if c = 'm' then some r else none

/-- After `ESC` has been read: require `[`, then `ansiBody`. -/
def ansiSplit : List Char → Option (List Char)
  | [] => none
  | c :: r => if c = '[' then ansiBody r else none

/-- Step 8 of `markdown_to_plain_text`:
`re.sub(r"\x1b\[[0-9;]*m", "", text)` — delete every ANSI color/style
escape sequence, scanning left to right and continuing after each match
(fuel-indexed for structural recursion; fuel = input length suffices). -/
def stripAnsiF : Nat → List Char → List Char
  | _, [] => []
  | 0, l => l
  | f + 1, c :: rest =>
      if c = escCh then
        match ansiSplit rest with
        | some r2 => stripAnsiF f r2
        | none => c :: stripAnsiF f rest
      else c :: stripAnsiF f rest

/-- Step 8 of `markdown_to_plain_text` (see `stripAnsiF`). -/
def stripAnsi (l : List Char) : List Char := stripAnsiF l.length l

/-- Length of the leading run of `'\n'` characters. -/
def countNL : List Char → Nat
  | [] => 0
  | c :: rest => if c = '\n' then countNL rest + 1 else 0

/-- Drop the leading run of `'\n'` characters. -/
def dropNL : List Char → List Char
  | [] => []
  | c :: rest => if c = '\n' then dropNL rest else c :: rest

/-- Step 9 of `markdown_to_plain_text`: `re.sub(r"\n{3,}", "\n\n", text)`.
Each maximal run of `k ≥ 3` newlines is replaced by exactly two, runs of one
or two newlines are left alone — i.e. each maximal run of `k` newlines is
emitted as `min k 2` newlines.  (Fuel-indexed for structural recursion;
fuel = input length suffices.) -/
def collapseF : Nat → List Char → List Char
  | _, [] => []
  | 0, l => l
  | f + 1, c :: rest =>
      if c = '\n' then
        List.replicate (min (countNL rest + 1) 2) '\n' ++ collapseF f (dropNL rest)
      else c :: collapseF f rest

/-- Step 9 of `markdown_to_plain_text` (see `collapseF`). -/
def collapse (l : List Char) : List Char := collapseF l.length l

/-- Step 10 of `markdown_to_plain_text`, first half:
`if not text.endswith("\n"): text += "\n"`. -/
def ensureNL (l : List Char) : List Char :=
  if l.getLast? = some '\n' then l else l ++ ['\n']

/-- The element tree consumed by the renderer: the BeautifulSoup parse of the
HTML produced by the external markdown converter.  Per the spec's data model,
headings carry inline children (their text runs), table cells are plain text,
and a table is an optional `thead` row-group plus a sequence of body rows
(each row a sequence of cells, given by their raw text content).  `elem` is
any other container tag (`p`, `ul`, `ol`, emphasis, ...), through which
`get_text` simply concatenates the children's text in document order. -/
inductive Node where
  | text : List Char → Node
  | li : List Node → Node
  | elem : List Node → Node
  | heading : List (List Char) → Node
  | table : Option (List (List (List Char))) → List (List (List Char)) → Node

/-- Pass 4 of the heading step: `heading.get_text(separator=" ", strip=True)`
— each inline text run is stripped, empty runs are skipped, and the rest are
joined with a single space (BeautifulSoup's `get_text` semantics). -/
def headText (inls : List (List Char)) : List Char :=
  List.intercalate [' '] ((inls.map pyStrip).filter (fun s => !s.isEmpty))

/-- Lines 46-55 of `cli.py`: the headers passed to `tabulate`.  If a `thead`
exists, `[th.get_text(strip=True) for th in thead.find_all("th")]` — all
header cells across the head rows, in order, each trimmed.  Otherwise the
first `tr` of the table (the first body row, if any), each cell trimmed;
headers are empty if there are no rows at all. -/
def tableHeaders (thead : Option (List (List (List Char))))
    (body : List (List (List Char))) : List (List Char) :=
  match thead with
  | some hrows => hrows.flatten.map pyStrip
  | none =>
      match body with
      | r :: _ => r.map pyStrip
      | [] => []

/-- Lines 57-65 of `cli.py`: the data rows passed to `tabulate`.
`trs = table.find_all("tr")` returns every `tr` in document order — the
`thead` rows included; `start_idx = 1 if (not thead and len(trs) > 0) else 0`;
each remaining row is mapped to its trimmed cell texts and rows with zero
cells are dropped. -/
def tableDataRows (thead : Option (List (List (List Char))))
    (body : List (List (List Char))) : List (List (List Char)) :=
  let trs := (match thead with | some h => h | none => []) ++ body
  let start := if thead = none ∧ trs ≠ [] then 1 else 0
  ((trs.drop start).map (fun r => r.map pyStrip)).filter (fun r => !r.isEmpty)

/-- Modelled from the spec: the repository calls the external `tabulate`
library (`tabulate(rows, headers=headers, tablefmt="github")`), whose code is
not part of this repository.  Spec §4.1 pass 3: "Render headers+rows as a
fixed left-aligned text grid with column separators and a header/body divider
line ... (column widths = max content width per column, one padding space
each side, `|` column separators, `-` divider cells).  If there are zero rows
and zero headers, render nothing (empty string) for that table." -/
def tabulateGithub (headers : List (List Char)) (rows : List (List (List Char))) : List Char :=
  if headers = [] ∧ rows = [] then []
  else
    let ncols := max headers.length ((rows.map List.length).foldr max 0)
    let width := fun j =>
      max (headers.getD j []).length ((rows.map (fun r => (r.getD j []).length)).foldr max 0)
    let padCell := fun (j : Nat) (r : List (List Char)) =>
      r.getD j [] ++ List.replicate (width j - (r.getD j []).length) ' '
    let renderRow := fun (r : List (List Char)) =>
      '|' :: ' ' :: (List.intercalate [' ', '|', ' '] ((List.range ncols).map (fun j => padCell j r)) ++ [' ', '|'])
    let divider :=
      '|' :: (List.intercalate ['|'] ((List.range ncols).map (fun j => List.replicate (width j + 2) '-')) ++ ['|'])
    List.intercalate ['\n']
      ((if headers = [] then [] else [renderRow headers, divider]) ++ rows.map renderRow)

mutual

/-- The text contribution of one node to `soup.get_text()` after the three
tree passes of `markdown_to_plain_text` have run, lines 32-71 of `cli.py`:
each `li` is preceded by the inserted string `"• "` and followed by `"\n"`
(lines 32-35); each heading's content is replaced by
`"\n" + text.upper() + "\n" + "-" * len(text) + "\n"` where `text` is the
heading's original space-joined stripped text (lines 38-41); each table is
replaced by `"\n" + tabulate(rows, headers, "github") + "\n"` (lines 44-68);
all other nodes contribute their text in document order. -/
def extractNode : Node → List Char
  | .text s => s
  | .li cs => '•' :: ' ' :: (extractList cs ++ ['\n'])
  | .elem cs => extractList cs
  | .heading inls =>
      '\n' :: (pyUpper (headText inls) ++
        '\n' :: (List.replicate (headText inls).length '-' ++ ['\n']))
  | .table thead body =>
      '\n' :: (tabulateGithub (tableHeaders thead body) (tableDataRows thead body) ++ ['\n'])

/-- `soup.get_text()` over a forest, concatenating in document order. -/
def extractList : List Node → List Char
  | [] => []
  | n :: ns => extractNode n ++ extractList ns

end

/-- The renderer `markdown_to_plain_text` of `cli.py`, from the element tree
(the BeautifulSoup parse — the spec's external-parser boundary) to the
returned string: tree passes + `get_text` (`extractList`), checkbox
normalization (step 7), ANSI stripping (step 8), blank-line collapse
(step 9), and step 10 — append a newline if missing, then `return
text.strip()`. -/
def markdown_to_plain_text (doc : List Node) : List Char :=
  pyStrip (ensureNL (collapse (stripAnsi (checkbox (extractList doc)))))

/-- Python `html.escape(s)` (with its default `quote=True`): five sequential
`str.replace` calls, in this order — `&`→`&amp;` first, then `<`→`&lt;`,
`>`→`&gt;`, `"`→`&quot;`, `'`→`&#x27;`. -/
def htmlEscape (l : List Char) : List Char :=
  replaceAll [aposCh] "&#x27;".data
    (replaceAll ['"'] "&quot;".data
      (replaceAll ['>'] "&gt;".data
        (replaceAll ['<'] "&lt;".data
          (replaceAll ['&'] "&amp;".data l))))

/-- The per-character effect of `html.escape`: because `&` is replaced first
and no later replacement target occurs in any replacement text, the five
sequential `str.replace` calls of `htmlEscape` act independently on each
character (proved below as `htmlEscape_eq_flatten`). -/
def escChar (c : Char) : List Char :=
  if c = '&' then "&amp;".data
  else if c = '<' then "&lt;".data
  else if c = '>' then "&gt;".data
  else if c = '"' then "&quot;".data
  else if c = aposCh then "&#x27;".data
  else [c]

/-- The fixed opening markup of the fragment wrapper (the `<pre style=...>`
literal of `to_html_preserving_newlines`, lines 101-105 of `cli.py`). -/
def preOpen : List Char :=
  "<pre style=\"white-space: pre-wrap; font-family: -apple-system, BlinkMacSystemFont, ".data
    ++ [aposCh] ++ "Helvetica Neue".data ++ [aposCh]
    ++ ", Helvetica, Arial, sans-serif; font-size: 14px; line-height: 1.4;\">".data

/-- The fixed closing markup of the fragment wrapper. -/
def preClose : List Char := "</pre>".data

/-- The fragment wrapper `to_html_preserving_newlines` of `cli.py`:
`html.escape` the plain text and embed it between the fixed `<pre ...>` and
`</pre>` markup. -/
def to_html_preserving_newlines (plain : List Char) : List Char :=
  preOpen ++ htmlEscape plain ++ preClose

/-- Checker for escaped text: no literal `<`, `>`, `"` or `'` at all, and
every `&` begins one of the five entities `html.escape` emits
(`&amp;` `&lt;` `&gt;` `&quot;` `&#x27;`). -/
def escOk : List Char → Bool
  | [] => true
  | c :: rest =>
      if c = '&' then
        if "amp;".data.isPrefixOf rest then escOk (rest.drop 4)
        else if "lt;".data.isPrefixOf rest then escOk (rest.drop 3)
        else if "gt;".data.isPrefixOf rest then escOk (rest.drop 3)
        else if "quot;".data.isPrefixOf rest then escOk (rest.drop 5)
        else if "#x27;".data.isPrefixOf rest then escOk (rest.drop 5)
        else false
      else !(c == '<' || c == '>' || c == '"' || c == aposCh) && escOk rest
  termination_by l => l.length
  decreasing_by
    all_goals simp only [List.length_drop, List.length_cons]; omega

/-- Decoder for `html.escape` output: translate each of the five entities
back to its character; a left inverse of `htmlEscape` (used to prove the
wrapper injective). -/
def unesc : List Char → List Char
  | [] => []
  | c :: rest =>
      if c = '&' then
        if "amp;".data.isPrefixOf rest then '&' :: unesc (rest.drop 4)
        else if "lt;".data.isPrefixOf rest then '<' :: unesc (rest.drop 3)
        else if "gt;".data.isPrefixOf rest then '>' :: unesc (rest.drop 3)
        else if "quot;".data.isPrefixOf rest then '"' :: unesc (rest.drop 5)
        else if "#x27;".data.isPrefixOf rest then aposCh :: unesc (rest.drop 5)
        else c :: unesc rest
      else c :: unesc rest
  termination_by l => l.length
  decreasing_by
    all_goals simp only [List.length_drop, List.length_cons]; omega

/-- Number of non-overlapping occurrences of a (nonempty) pattern, scanning
left to right — the count of `"• "` markers in a rendered string.
(Fuel-indexed for structural recursion; fuel = input length suffices.) -/
def countOccsF (pat : List Char) : Nat → List Char → Nat
  | _, [] => 0
  | 0, _ => 0
  | f + 1, c :: rest =>
      if pat ≠ [] ∧ pat.isPrefixOf (c :: rest) then
        1 + countOccsF pat f ((c :: rest).drop pat.length)
      else countOccsF pat f rest

/-- Number of non-overlapping occurrences of `pat` (see `countOccsF`). -/
def countOccs (pat l : List Char) : Nat := countOccsF pat l.length l

/-- Whether `pat` occurs as a contiguous substring of the input (Python's
`pat in s`): some position of the input has `pat` as a prefix. -/
def hasSubstr (pat : List Char) : List Char → Bool
  | [] => pat.isEmpty
  | c :: rest => pat.isPrefixOf (c :: rest) || hasSubstr pat rest

/-- Every `'•'` in the string is immediately followed by `' '` — i.e. every
bullet character is part of an intact `"• "` marker. -/
def pairOk : List Char → Bool
  | [] => true
  | c :: rest => (c != '•' || rest.head? == some ' ') && pairOk rest

mutual

/-- The tree has only list content (`list`/`listItem` structure and text
leaves), and no text leaf contains the bullet character `'•'` itself. -/
def pureList : Node → Bool
  | .text s => decide ('•' ∉ s)
  | .li cs => pureListAll cs
  | .elem cs => pureListAll cs
  | .heading _ => false
  | .table _ _ => false

/-- `pureList` over a forest. -/
def pureListAll : List Node → Bool
  | [] => true
  | n :: ns => pureList n && pureListAll ns

end

mutual

/-- Total number of `listItem` nodes in a tree, nested items counted once. -/
def liCount : Node → Nat
  | .text _ => 0
  | .li cs => 1 + liCountList cs
  | .elem cs => liCountList cs
  | .heading _ => 0
  | .table _ _ => 0

/-- `liCount` over a forest. -/
def liCountList : List Node → Nat
  | [] => 0
  | n :: ns => liCount n + liCountList ns

end

theorem extractList_append (a b : List Node) :
    extractList (a ++ b) = extractList a ++ extractList b := by
  induction a with
  | nil => rfl
  | cons n ns ih => simp [extractList, ih]

theorem headD_dropWhile_space (l : List Char) :
    pyIsSpace ((l.dropWhile pyIsSpace).headD 'x') = false := by
  induction l with
  | nil => decide
  | cons c rest ih =>
      by_cases h : pyIsSpace c
      · simpa [List.dropWhile_cons, h] using ih
      · rw [List.dropWhile_cons, if_neg h, List.headD_cons]
        simpa using h

theorem pyStrip_headD (l : List Char) :
    pyIsSpace ((pyStrip l).headD 'x') = false := by
  unfold pyStrip
  cases hr : ((l.dropWhile pyIsSpace).reverse.dropWhile pyIsSpace).reverse with
  | nil => decide
  | cons c cl =>
      have hpref : ((l.dropWhile pyIsSpace).reverse.dropWhile pyIsSpace).reverse
          <+: l.dropWhile pyIsSpace := by
        have h1 := (List.dropWhile_suffix (l := (l.dropWhile pyIsSpace).reverse) pyIsSpace).reverse
        simpa using h1
      rw [hr] at hpref
      obtain ⟨t, ht⟩ := hpref
      have hhead : (l.dropWhile pyIsSpace).headD 'x' = c := by
        rw [← ht]; rfl
      have := headD_dropWhile_space l
      rw [hhead] at this
      simpa using this

theorem pyStrip_getLastD (l : List Char) :
    pyIsSpace ((pyStrip l).getLastD 'x') = false := by
  unfold pyStrip
  rw [List.getLastD_eq_getLast?, List.getLast?_reverse]
  have := headD_dropWhile_space ((l.dropWhile pyIsSpace).reverse)
  rwa [List.headD_eq_head?_getD] at this

/-- C10: for every input document, the string returned by the renderer has no
leading and no trailing whitespace character (in Python's `str.strip`
whitespace set, which contains `'\n'` — so in particular the result never
begins or ends with a line break); the default `'x'` covers the empty
result. -/
theorem markdown_to_plain_text_no_edge_whitespace (doc : List Node) :
    pyIsSpace ((markdown_to_plain_text doc).headD 'x') = false ∧
      pyIsSpace ((markdown_to_plain_text doc).getLastD 'x') = false :=
  ⟨pyStrip_headD _, pyStrip_getLastD _⟩

/-- C1: the renderer does NOT end its output with a line break: step 10
appends a newline and then returns `text.strip()`, which removes it again.
On the one-paragraph document whose text is `"hi"` the renderer returns
`"hi"` — no trailing line break at all, contradicting the claim that every
output ends with exactly one. -/
theorem markdown_to_plain_text_hi_eval :
    markdown_to_plain_text [Node.text "hi".data] = "hi".data ∧
      (markdown_to_plain_text [Node.text "hi".data]).getLast? ≠ some '\n' := by
  constructor
  · decide
  · decide

/-- C2: on a table with an explicit header row-group (`thead` holding the
single row `["H"]`) and one body row `["d"]`, the code's data rows are
`[["H"], ["d"]]` — the header row is included among the data rows (because
`find_all("tr")` collects the `thead` row and `start_idx` is `0` when a
`thead` is present), while its trimmed cells do become the headers. -/
theorem tableDataRows_includes_thead_row :
    tableHeaders (some [["H".data]]) [["d".data]] = ["H".data] ∧
      tableDataRows (some [["H".data]]) [["d".data]] = [["H".data], ["d".data]] := by
  constructor
  · decide
  · decide

/-- C8: the renderer degrades gracefully on structurally incomplete nodes —
a table with no rows contributes only its surrounding line breaks (headers
and data rows are the empty sequence, and the grid renders as the empty
string), rows with no cells are dropped from every table's data rows, and a
heading with no text renders as an empty upper-cased line with a zero-length
underline; in every case the surrounding document (`pre`, `post`) is still
rendered unchanged.  The embedding is a total function: no error value or
exception exists on this path. -/
theorem renderer_degrades_gracefully :
    (∀ pre post : List Node,
        extractList (pre ++ Node.table none [] :: post) =
          extractList pre ++ '\n' :: '\n' :: extractList post) ∧
    (∀ (thead : Option (List (List (List Char)))) (body : List (List (List Char))),
        (tableDataRows thead body).all (fun r => !r.isEmpty) = true) ∧
    (∀ pre post : List Node,
        extractList (pre ++ Node.heading [] :: post) =
          extractList pre ++ '\n' :: '\n' :: '\n' :: extractList post) := by
  refine ⟨?_, ?_, ?_⟩
  · intro pre post
    rw [extractList_append]
    rfl
  · intro thead body
    rw [List.all_eq_true]
    intro r hr
    unfold tableDataRows at hr
    simp only [List.mem_filter] at hr
    exact hr.2
  · intro pre post
    rw [extractList_append]
    rfl

theorem pyUpperChar_ascii (c : Char) (h : c.toNat ≤ 127) :
    pyUpperChar c = [c.toUpper] := by
  have h1 : c ≠ 'ß' := fun he => absurd (he ▸ h) (by decide)
  have h2 : c ≠ 'ﬀ' := fun he => absurd (he ▸ h) (by decide)
  have h3 : c ≠ 'ﬁ' := fun he => absurd (he ▸ h) (by decide)
  have h4 : c ≠ 'ﬂ' := fun he => absurd (he ▸ h) (by decide)
  have h5 : c ≠ 'ﬃ' := fun he => absurd (he ▸ h) (by decide)
  have h6 : c ≠ 'ﬄ' := fun he => absurd (he ▸ h) (by decide)
  have h7 : c ≠ 'ﬅ' := fun he => absurd (he ▸ h) (by decide)
  have h8 : c ≠ 'ﬆ' := fun he => absurd (he ▸ h) (by decide)
  have h9 : c ≠ 'ŉ' := fun he => absurd (he ▸ h) (by decide)
  have h10 : c ≠ 'ǰ' := fun he => absurd (he ▸ h) (by decide)
  simp [pyUpperChar, h1, h2, h3, h4, h5, h6, h7, h8, h9, h10]

theorem pyUpper_length_of_ascii (l : List Char) (h : allAscii l = true) :
    (pyUpper l).length = l.length := by
  induction l with
  | nil => rfl
  | cons c rest ih =>
      rw [allAscii, List.all_cons, Bool.and_eq_true] at h
      have hc : c.toNat ≤ 127 := of_decide_eq_true h.1
      have hrest : allAscii rest = true := h.2
      have hcons : pyUpper (c :: rest) = pyUpperChar c ++ pyUpper rest := by
        simp [pyUpper]
      rw [hcons, List.length_append, ih hrest, pyUpperChar_ascii c hc]
      simp [Nat.add_comm]

/-- C3 (counterexample): on a heading whose text is `"ß"` the rendered
heading is `"\nSS\n-\n"` — Python's `"ß".upper()` is `"SS"` (two characters)
while the underline is `"-" * len("ß")` (one character), so the dash line's
length differs from the upper-cased text's length, refuting the claim. -/
theorem heading_underline_mismatch_on_eszett :
    extractNode (Node.heading [['ß']]) = ['\n', 'S', 'S', '\n', '-', '\n'] ∧
      (List.replicate (headText [['ß']]).length '-').length ≠
        (pyUpper (headText [['ß']])).length := by
  constructor
  · decide
  · decide

/-- C3 (amended): the rendered heading is the upper-cased heading text on one
line above a dash line whose length equals the character length of the
ORIGINAL heading text (`"-" * len(text)` in the source).  For ASCII heading
text — where Python's upper-casing is character-wise and length-preserving —
this equals the character length of the upper-cased text; in general
upper-casing can lengthen the text (`'ß' → "SS"`, `'ﬁ' → "FI"`, ...) and the
dash line is then shorter than the upper-cased line above it.  A heading
with empty text yields a zero-length dash line. -/
theorem heading_underline_amended (inls : List (List Char))
    (h : allAscii (headText inls) = true) :
    extractNode (Node.heading inls) =
      '\n' :: (pyUpper (headText inls) ++
        '\n' :: (List.replicate (headText inls).length '-' ++ ['\n'])) ∧
      (List.replicate (headText inls).length '-').length =
        (pyUpper (headText inls)).length := by
  refine ⟨rfl, ?_⟩
  rw [List.length_replicate, pyUpper_length_of_ascii _ h]

/-- Witness for `heading_underline_amended` at the heading `"Notes"`. -/
theorem heading_underline_amended_witness :
    allAscii (headText ["Notes".data]) = true ∧
      (List.replicate (headText ["Notes".data]).length '-').length =
        (pyUpper (headText ["Notes".data])).length :=
  ⟨by decide, (heading_underline_amended ["Notes".data] (by decide)).2⟩

theorem dropNL_length_le (l : List Char) : (dropNL l).length ≤ l.length := by
  induction l with
  | nil => simp [dropNL]
  | cons c rest ih =>
      by_cases h : c = '\n'
      · rw [dropNL, if_pos h]
        exact Nat.le_succ_of_le ih
      · rw [dropNL, if_neg h]

theorem collapseF_succ_of_le :
    ∀ (fuel : Nat) (l : List Char), l.length ≤ fuel →
      collapseF (fuel + 1) l = collapseF fuel l := by
  intro fuel
  induction fuel with
  | zero =>
      intro l hl
      have : l = [] := List.length_eq_zero.mp (Nat.le_zero.mp hl)
      subst this; rfl
  | succ f ih =>
      intro l hl
      cases l with
      | nil => rfl
      | cons c rest =>
          have hrest : rest.length ≤ f := by simpa using hl
          by_cases h : c = '\n'
          · have hdrop : (dropNL rest).length ≤ f :=
              Nat.le_trans (dropNL_length_le rest) hrest
            simp only [collapseF, if_pos h]
            rw [ih _ hdrop]
          · simp only [collapseF, if_neg h]
            rw [ih _ hrest]

theorem collapseF_eq_of_le :
    ∀ (fuel : Nat) (l : List Char), l.length ≤ fuel →
      collapseF fuel l = collapse l := by
  intro fuel
  induction fuel with
  | zero =>
      intro l hl
      have : l = [] := List.length_eq_zero.mp (Nat.le_zero.mp hl)
      subst this; rfl
  | succ f ih =>
      intro l hl
      rcases Nat.lt_or_ge l.length (f + 1) with h | h
      · have hle : l.length ≤ f := Nat.lt_succ_iff.mp h
        rw [collapseF_succ_of_le f l hle, ih l hle]
      · have : l.length = f + 1 := Nat.le_antisymm hl h
        rw [collapse, this]

/-- Unfolding: `collapse` at a newline — the whole maximal run of `k`
newlines becomes `min k 2` newlines. -/
theorem collapse_cons_nl (rest : List Char) :
    collapse ('\n' :: rest) =
      List.replicate (min (countNL rest + 1) 2) '\n' ++ collapse (dropNL rest) := by
  show collapseF (rest.length + 1) ('\n' :: rest) = _
  simp only [collapseF, if_pos rfl, if_true]
  rw [collapseF_eq_of_le rest.length _ (dropNL_length_le rest)]

/-- Unfolding: `collapse` at a non-newline character. -/
theorem collapse_cons (c : Char) (rest : List Char) (h : c ≠ '\n') :
    collapse (c :: rest) = c :: collapse rest := by
  show collapseF (rest.length + 1) (c :: rest) = _
  simp only [collapseF, if_neg h]
  rfl

theorem countNL_eq_zero (l : List Char) (h : l.head? ≠ some '\n') :
    countNL l = 0 := by
  cases l with
  | nil => rfl
  | cons c rest =>
      have hc : c ≠ '\n' := by simpa using h
      rw [countNL, if_neg hc]

theorem dropNL_eq_self (l : List Char) (h : l.head? ≠ some '\n') :
    dropNL l = l := by
  cases l with
  | nil => rfl
  | cons c rest =>
      have hc : c ≠ '\n' := by simpa using h
      rw [dropNL, if_neg hc]

theorem countNL_replicate_append (k : Nat) (l : List Char)
    (h : l.head? ≠ some '\n') :
    countNL (List.replicate k '\n' ++ l) = k := by
  induction k with
  | zero => simpa using countNL_eq_zero l h
  | succ n ih =>
      simp only [List.replicate_succ, List.cons_append, countNL, if_pos rfl, if_true,
        List.append_eq, ih]

theorem dropNL_replicate_append (k : Nat) (l : List Char)
    (h : l.head? ≠ some '\n') :
    dropNL (List.replicate k '\n' ++ l) = l := by
  induction k with
  | zero => simpa using dropNL_eq_self l h
  | succ n ih =>
      simp only [List.replicate_succ, List.cons_append, dropNL, if_pos rfl, if_true,
        List.append_eq, ih]

theorem dropNL_head (l : List Char) : (dropNL l).head? ≠ some '\n' := by
  induction l with
  | nil => simp [dropNL]
  | cons c rest ih =>
      by_cases h : c = '\n'
      · rwa [dropNL, if_pos h]
      · rw [dropNL, if_neg h]
        simpa using h

theorem collapse_head (l : List Char) (h : l.head? ≠ some '\n') :
    (collapse l).head? ≠ some '\n' := by
  cases l with
  | nil => simp [collapse, collapseF]
  | cons c rest =>
      have hc : c ≠ '\n' := by simpa using h
      rw [collapse_cons c rest hc]
      simpa using hc

/-- C5: the blank-line-collapse step (step 9, `re.sub(r"\n{3,}", "\n\n")`)
is idempotent: `collapse (collapse s) = collapse s` for all strings `s`. -/
theorem collapse_idempotent (s : List Char) :
    collapse (collapse s) = collapse s := by
  suffices H : ∀ (n : Nat) (l : List Char), l.length ≤ n →
      collapse (collapse l) = collapse l from H s.length s Nat.le.refl
  intro n
  induction n with
  | zero =>
      intro l hl
      have : l = [] := List.length_eq_zero.mp (Nat.le_zero.mp hl)
      subst this; rfl
  | succ n ih =>
      intro l hl
      cases l with
      | nil => rfl
      | cons c rest =>
          have hrest : rest.length ≤ n := by simpa using hl
          by_cases h : c = '\n'
          · subst h
            rw [collapse_cons_nl rest]
            set m := min (countNL rest + 1) 2 with hm
            have hm1 : 1 ≤ m := by
              rw [hm]; omega
            have hm2 : m ≤ 2 := by
              rw [hm]; omega
            have hhead : (collapse (dropNL rest)).head? ≠ some '\n' :=
              collapse_head _ (dropNL_head rest)
            obtain ⟨m', hm'⟩ : ∃ m', m = m' + 1 := ⟨m - 1, by omega⟩
            rw [hm', List.replicate_succ, List.cons_append]
            rw [collapse_cons_nl]
            rw [countNL_replicate_append m' _ hhead,
              dropNL_replicate_append m' _ hhead]
            have hmin : min (m' + 1) 2 = m' + 1 := by omega
            rw [hmin]
            have hdl : (dropNL rest).length ≤ n :=
              Nat.le_trans (dropNL_length_le rest) hrest
            rw [ih _ hdl]
            rw [List.replicate_succ, List.cons_append]
          · rw [collapse_cons c rest h, collapse_cons c _ h]
            rw [ih rest hrest]

theorem replaceAll_single_char (c : Char) (rep : List Char) :
    ∀ l, replaceAll [c] rep l = (l.map (fun d => if d = c then rep else [d])).flatten := by
  intro l
  induction l with
  | nil => rfl
  | cons d rest ih =>
      by_cases h : d = c
      · subst h
        have hc : ([d] ≠ ([] : List Char)) ∧ [d].isPrefixOf (d :: rest) := by
          refine ⟨by simp, ?_⟩
          rw [ List.isPrefixOf_iff_prefix]
          exact ⟨rest, rfl⟩
        rw [replaceAll_pos _ _ _ _ hc]
        rw [show (d :: rest).drop [d].length = rest from rfl]
        rw [ih]
        simp
      · have hc : ¬(([c] ≠ ([] : List Char)) ∧ [c].isPrefixOf (d :: rest)) := by
          rintro ⟨-, hp⟩
          rw [ List.isPrefixOf_iff_prefix, List.cons_prefix_cons] at hp
          exact h hp.1.symm
        rw [replaceAll_neg _ _ _ _ hc, ih]
        simp [h]

theorem htmlEscape_cons (c : Char) (l : List Char) :
    htmlEscape (c :: l) = escChar c ++ htmlEscape l := by
  have step : ∀ (a : Char) (rep x y : List Char),
      replaceAll [a] rep (x ++ y) = replaceAll [a] rep x ++ replaceAll [a] rep y := by
    intro a rep x y
    simp [replaceAll_single_char]
  have single : ∀ (a : Char) (rep : List Char) (d : Char),
      replaceAll [a] rep [d] = if d = a then rep else [d] := by
    intro a rep d
    simp [replaceAll_single_char]
  show htmlEscape ([c] ++ l) = _
  unfold htmlEscape
  rw [step, step, step, step, step]
  congr 1
  by_cases h1 : c = '&'
  · subst h1; decide
  by_cases h2 : c = '<'
  · subst h2; decide
  by_cases h3 : c = '>'
  · subst h3; decide
  by_cases h4 : c = '"'
  · subst h4; decide
  by_cases h5 : c = aposCh
  · subst h5; decide
  rw [single '&' _ c, if_neg h1, single '<' _ c, if_neg h2, single '>' _ c, if_neg h3,
    single '"' _ c, if_neg h4, single aposCh _ c, if_neg h5]
  simp [escChar, h1, h2, h3, h4, h5]

theorem escOk_escChar (c : Char) (l : List Char) :
    escOk (escChar c ++ l) = escOk l := by
  by_cases h1 : c = '&'
  · subst h1
    have hp : "amp;".data.isPrefixOf ('a' :: 'm' :: 'p' :: ';' :: l) = true := by
      rw [ List.isPrefixOf_iff_prefix]
      exact ⟨l, rfl⟩
    show escOk ('&' :: 'a' :: 'm' :: 'p' :: ';' :: l) = escOk l
    rw [escOk]
    simp [hp]
  by_cases h2 : c = '<'
  · subst h2
    have hn : "amp;".data.isPrefixOf ('l' :: 't' :: ';' :: l) = false := by
      simp [List.isPrefixOf]
    have hp : "lt;".data.isPrefixOf ('l' :: 't' :: ';' :: l) = true := by
      rw [ List.isPrefixOf_iff_prefix]
      exact ⟨l, rfl⟩
    show escOk ('&' :: 'l' :: 't' :: ';' :: l) = escOk l
    rw [escOk]
    simp [hn, hp]
  by_cases h3 : c = '>'
  · subst h3
    have hn : "amp;".data.isPrefixOf ('g' :: 't' :: ';' :: l) = false := by
      simp [List.isPrefixOf]
    have hn2 : "lt;".data.isPrefixOf ('g' :: 't' :: ';' :: l) = false := by
      simp [List.isPrefixOf]
    have hp : "gt;".data.isPrefixOf ('g' :: 't' :: ';' :: l) = true := by
      rw [ List.isPrefixOf_iff_prefix]
      exact ⟨l, rfl⟩
    show escOk ('&' :: 'g' :: 't' :: ';' :: l) = escOk l
    rw [escOk]
    simp [hn, hn2, hp]
  by_cases h4 : c = '"'
  · subst h4
    have hn : "amp;".data.isPrefixOf ('q' :: 'u' :: 'o' :: 't' :: ';' :: l) = false := by
      simp [List.isPrefixOf]
    have hn2 : "lt;".data.isPrefixOf ('q' :: 'u' :: 'o' :: 't' :: ';' :: l) = false := by
      simp [List.isPrefixOf]
    have hn3 : "gt;".data.isPrefixOf ('q' :: 'u' :: 'o' :: 't' :: ';' :: l) = false := by
      simp [List.isPrefixOf]
    have hp : "quot;".data.isPrefixOf ('q' :: 'u' :: 'o' :: 't' :: ';' :: l) = true := by
      rw [ List.isPrefixOf_iff_prefix]
      exact ⟨l, rfl⟩
    show escOk ('&' :: 'q' :: 'u' :: 'o' :: 't' :: ';' :: l) = escOk l
    rw [escOk]
    simp [hn, hn2, hn3, hp]
  by_cases h5 : c = aposCh
  · subst h5
    have hn : "amp;".data.isPrefixOf ('#' :: 'x' :: '2' :: '7' :: ';' :: l) = false := by
      simp [List.isPrefixOf]
    have hn2 : "lt;".data.isPrefixOf ('#' :: 'x' :: '2' :: '7' :: ';' :: l) = false := by
      simp [List.isPrefixOf]
    have hn3 : "gt;".data.isPrefixOf ('#' :: 'x' :: '2' :: '7' :: ';' :: l) = false := by
      simp [List.isPrefixOf]
    have hn4 : "quot;".data.isPrefixOf ('#' :: 'x' :: '2' :: '7' :: ';' :: l) = false := by
      simp [List.isPrefixOf]
    have hp : "#x27;".data.isPrefixOf ('#' :: 'x' :: '2' :: '7' :: ';' :: l) = true := by
      rw [ List.isPrefixOf_iff_prefix]
      exact ⟨l, rfl⟩
    show escOk ('&' :: '#' :: 'x' :: '2' :: '7' :: ';' :: l) = escOk l
    rw [escOk]
    simp [hn, hn2, hn3, hn4, hp]
  have hesc : escChar c = [c] := by
    simp [escChar, h1, h2, h3, h4, h5]
  rw [hesc]
  show escOk (c :: l) = escOk l
  rw [escOk]
  simp [h1, h2, h3, h4, h5]

theorem escOk_htmlEscape (s : List Char) : escOk (htmlEscape s) = true := by
  induction s with
  | nil =>
      rw [show htmlEscape [] = [] from rfl]
      simp [escOk]
  | cons c rest ih => rw [htmlEscape_cons, escOk_escChar, ih]

/-- C4: the fragment returned by `to_html_preserving_newlines` is exactly the
fixed wrapper markup around the escaped text, and the escaped text contains
no literal `<`, `>`, `"` or `'` at all and no `&` except as the start of one
of the five entities emitted by `html.escape` — so no reserved character
occurs unescaped outside the fixed wrapper markup, for every input string
(in particular for those containing `<`, `>`, `&` or quotes). -/
theorem to_html_preserving_newlines_escapes (s : List Char) :
    to_html_preserving_newlines s = preOpen ++ htmlEscape s ++ preClose ∧
      escOk (htmlEscape s) = true :=
  ⟨rfl, escOk_htmlEscape s⟩

theorem unesc_escChar (c : Char) (l : List Char) :
    unesc (escChar c ++ l) = c :: unesc l := by
  by_cases h1 : c = '&'
  · subst h1
    have hp : "amp;".data.isPrefixOf ('a' :: 'm' :: 'p' :: ';' :: l) = true := by
      rw [ List.isPrefixOf_iff_prefix]
      exact ⟨l, rfl⟩
    show unesc ('&' :: 'a' :: 'm' :: 'p' :: ';' :: l) = '&' :: unesc l
    rw [unesc]
    simp [hp]
  by_cases h2 : c = '<'
  · subst h2
    have hn : "amp;".data.isPrefixOf ('l' :: 't' :: ';' :: l) = false := by
      simp [List.isPrefixOf]
    have hp : "lt;".data.isPrefixOf ('l' :: 't' :: ';' :: l) = true := by
      rw [ List.isPrefixOf_iff_prefix]
      exact ⟨l, rfl⟩
    show unesc ('&' :: 'l' :: 't' :: ';' :: l) = '<' :: unesc l
    rw [unesc]
    simp [hn, hp]
  by_cases h3 : c = '>'
  · subst h3
    have hn : "amp;".data.isPrefixOf ('g' :: 't' :: ';' :: l) = false := by
      simp [List.isPrefixOf]
    have hn2 : "lt;".data.isPrefixOf ('g' :: 't' :: ';' :: l) = false := by
      simp [List.isPrefixOf]
    have hp : "gt;".data.isPrefixOf ('g' :: 't' :: ';' :: l) = true := by
      rw [ List.isPrefixOf_iff_prefix]
      exact ⟨l, rfl⟩
    show unesc ('&' :: 'g' :: 't' :: ';' :: l) = '>' :: unesc l
    rw [unesc]
    simp [hn, hn2, hp]
  by_cases h4 : c = '"'
  · subst h4
    have hn : "amp;".data.isPrefixOf ('q' :: 'u' :: 'o' :: 't' :: ';' :: l) = false := by
      simp [List.isPrefixOf]
    have hn2 : "lt;".data.isPrefixOf ('q' :: 'u' :: 'o' :: 't' :: ';' :: l) = false := by
      simp [List.isPrefixOf]
    have hn3 : "gt;".data.isPrefixOf ('q' :: 'u' :: 'o' :: 't' :: ';' :: l) = false := by
      simp [List.isPrefixOf]
    have hp : "quot;".data.isPrefixOf ('q' :: 'u' :: 'o' :: 't' :: ';' :: l) = true := by
      rw [ List.isPrefixOf_iff_prefix]
      exact ⟨l, rfl⟩
    show unesc ('&' :: 'q' :: 'u' :: 'o' :: 't' :: ';' :: l) = '"' :: unesc l
    rw [unesc]
    simp [hn, hn2, hn3, hp]
  by_cases h5 : c = aposCh
  · subst h5
    have hn : "amp;".data.isPrefixOf ('#' :: 'x' :: '2' :: '7' :: ';' :: l) = false := by
      simp [List.isPrefixOf]
    have hn2 : "lt;".data.isPrefixOf ('#' :: 'x' :: '2' :: '7' :: ';' :: l) = false := by
      simp [List.isPrefixOf]
    have hn3 : "gt;".data.isPrefixOf ('#' :: 'x' :: '2' :: '7' :: ';' :: l) = false := by
      simp [List.isPrefixOf]
    have hn4 : "quot;".data.isPrefixOf ('#' :: 'x' :: '2' :: '7' :: ';' :: l) = false := by
      simp [List.isPrefixOf]
    have hp : "#x27;".data.isPrefixOf ('#' :: 'x' :: '2' :: '7' :: ';' :: l) = true := by
      rw [ List.isPrefixOf_iff_prefix]
      exact ⟨l, rfl⟩
    show unesc ('&' :: '#' :: 'x' :: '2' :: '7' :: ';' :: l) = aposCh :: unesc l
    rw [unesc]
    simp [hn, hn2, hn3, hn4, hp]
  have hesc : escChar c = [c] := by
    simp [escChar, h1, h2, h3, h4, h5]
  rw [hesc]
  show unesc (c :: l) = c :: unesc l
  rw [unesc]
  simp [h1]

theorem unesc_htmlEscape (s : List Char) : unesc (htmlEscape s) = s := by
  induction s with
  | nil =>
      rw [show htmlEscape [] = [] from rfl]
      simp [unesc]
  | cons c rest ih => rw [htmlEscape_cons, unesc_escChar, ih]

/-- C7: the fragment wrapper is injective — distinct plain texts yield
distinct fragments (`html.escape` is decoded by `unesc`, and the fixed
wrapper markup around the escaped text cancels), so the plain text is
recoverable from the fragment. -/
theorem to_html_preserving_newlines_injective (s1 s2 : List Char)
    (h : s1 ≠ s2) :
    to_html_preserving_newlines s1 ≠ to_html_preserving_newlines s2 := by
  intro heq
  apply h
  unfold to_html_preserving_newlines at heq
  rw [List.append_assoc, List.append_assoc] at heq
  have h1 := List.append_cancel_left heq
  have h2 := List.append_cancel_right h1
  calc s1 = unesc (htmlEscape s1) := (unesc_htmlEscape s1).symm
    _ = unesc (htmlEscape s2) := by rw [h2]
    _ = s2 := unesc_htmlEscape s2

/-- Witness for `to_html_preserving_newlines_injective` at `"a"`, `"b"`. -/
theorem to_html_preserving_newlines_injective_witness :
    (['a'] ≠ ['b']) ∧
      to_html_preserving_newlines ['a'] ≠ to_html_preserving_newlines ['b'] :=
  ⟨by decide, to_html_preserving_newlines_injective ['a'] ['b'] (by decide)⟩

theorem hasSubstr_iff (pat : List Char) :
    ∀ l, hasSubstr pat l = true ↔ pat <:+: l := by
  intro l
  induction l with
  | nil =>
      simp [hasSubstr, List.isEmpty_iff]
  | cons c rest ih =>
      rw [hasSubstr]
      rw [Bool.or_eq_true, List.infix_cons_iff, ih, List.isPrefixOf_iff_prefix]

theorem drop_pat_len_le (pat : List Char) (hpat : pat ≠ []) (c : Char)
    (rest : List Char) :
    ((c :: rest).drop pat.length).length ≤ rest.length := by
  obtain ⟨a, as, rfl⟩ : ∃ a as, pat = a :: as := by
    cases pat with
    | nil => exact absurd rfl hpat
    | cons a as => exact ⟨a, as, rfl⟩
  simp only [List.length_drop, List.length_cons]
  omega

theorem infix_append_right_of_disjoint {q rep R : List Char}
    (hq : q ≠ []) (hdisj : ∀ c ∈ q, c ∉ rep) (h : q <:+: rep ++ R) :
    q <:+: R := by
  obtain ⟨s, t, hst⟩ := h
  have hst' : s ++ (q ++ t) = rep ++ R := by
    rw [← List.append_assoc]; exact hst
  rcases Nat.lt_or_ge s.length rep.length with hlen | hlen
  · obtain ⟨qh, qt, rfl⟩ : ∃ qh qt, q = qh :: qt := by
      cases q with
      | nil => exact absurd rfl hq
      | cons qh qt => exact ⟨qh, qt, rfl⟩
    have h1 : (s ++ (qh :: qt ++ t))[s.length]? = some qh := by
      rw [List.getElem?_append_right (Nat.le_refl _)]
      simp
    rw [hst'] at h1
    rw [List.getElem?_append_left hlen] at h1
    have hmem : qh ∈ rep := List.getElem?_mem h1
    exact absurd hmem (hdisj qh (List.mem_cons_self qh qt))
  · have hs : s <+: rep ++ R := ⟨q ++ t, hst'⟩
    have hr : rep <+: rep ++ R := List.prefix_append rep R
    obtain ⟨s', rfl⟩ := List.prefix_of_prefix_length_le hr hs hlen
    refine ⟨s', t, ?_⟩
    have : rep ++ (s' ++ (q ++ t)) = rep ++ R := by
      rw [← List.append_assoc]; exact hst'
    have h2 := List.append_cancel_left this
    rw [← List.append_assoc] at h2
    exact h2

theorem pref_of_pref_replaceAll {pat rep : List Char} (hrep : rep ≠ [])
    (q : List Char) (hdisj : ∀ c ∈ q, c ∉ rep) :
    ∀ l, q <+: replaceAll pat rep l → q <+: l := by
  suffices H : ∀ (n : Nat) (q l : List Char), (∀ c ∈ q, c ∉ rep) →
      l.length ≤ n → q <+: replaceAll pat rep l → q <+: l from
    fun l => H l.length q l hdisj Nat.le.refl
  intro n
  induction n with
  | zero =>
      intro q l _ hl hq
      have : l = [] := List.length_eq_zero.mp (Nat.le_zero.mp hl)
      subst this
      rwa [replaceAll_nil] at hq
  | succ n ih =>
      intro q l hdisj hl hq
      cases l with
      | nil => rwa [replaceAll_nil] at hq
      | cons c rest =>
          have hrest : rest.length ≤ n := by simpa using hl
          by_cases hb : pat ≠ [] ∧ pat.isPrefixOf (c :: rest)
          · rw [replaceAll_pos _ _ _ _ hb] at hq
            cases q with
            | nil => exact List.nil_prefix
            | cons qh qt =>
                obtain ⟨rh, rt, rfl⟩ : ∃ rh rt, rep = rh :: rt := by
                  cases rep with
                  | nil => exact absurd rfl hrep
                  | cons rh rt => exact ⟨rh, rt, rfl⟩
                rw [List.cons_append, List.cons_prefix_cons] at hq
                exact absurd (List.mem_cons_self rh rt)
                  (hq.1 ▸ hdisj qh (List.mem_cons_self qh qt))
          · rw [replaceAll_neg _ _ _ _ hb] at hq
            cases q with
            | nil => exact List.nil_prefix
            | cons qh qt =>
                rw [List.cons_prefix_cons] at hq
                have hdisj' : ∀ d ∈ qt, d ∉ rep := fun d hd =>
                  hdisj d (List.mem_cons_of_mem qh hd)
                have := ih qt rest hdisj' hrest hq.2
                rw [List.cons_prefix_cons]
                exact ⟨hq.1, this⟩

theorem pat_not_infix_replaceAll {pat rep : List Char} (hpat : pat ≠ [])
    (hrep : rep ≠ []) (hdisj : ∀ c ∈ pat, c ∉ rep) :
    ∀ l, ¬ (pat <:+: replaceAll pat rep l) := by
  suffices H : ∀ (n : Nat) (l : List Char), l.length ≤ n →
      ¬ (pat <:+: replaceAll pat rep l) from fun l => H l.length l Nat.le.refl
  intro n
  induction n with
  | zero =>
      intro l hl hq
      have : l = [] := List.length_eq_zero.mp (Nat.le_zero.mp hl)
      subst this
      rw [replaceAll_nil, List.infix_nil] at hq
      exact hpat hq
  | succ n ih =>
      intro l hl hq
      cases l with
      | nil =>
          rw [replaceAll_nil, List.infix_nil] at hq
          exact hpat hq
      | cons c rest =>
          have hrest : rest.length ≤ n := by simpa using hl
          by_cases hb : pat ≠ [] ∧ pat.isPrefixOf (c :: rest)
          · rw [replaceAll_pos _ _ _ _ hb] at hq
            have h2 := infix_append_right_of_disjoint hpat hdisj hq
            exact ih _ (Nat.le_trans (drop_pat_len_le pat hpat c rest) hrest) h2
          · rw [replaceAll_neg _ _ _ _ hb] at hq
            rcases List.infix_cons_iff.mp hq with hp | hi
            · obtain ⟨ph, pt, rfl⟩ : ∃ ph pt, pat = ph :: pt := by
                cases pat with
                | nil => exact absurd rfl hpat
                | cons ph pt => exact ⟨ph, pt, rfl⟩
              rw [List.cons_prefix_cons] at hp
              have hdisj' : ∀ d ∈ pt, d ∉ rep := fun d hd =>
                hdisj d (List.mem_cons_of_mem ph hd)
              have hpt := pref_of_pref_replaceAll hrep pt hdisj' rest hp.2
              apply hb
              refine ⟨hpat, ?_⟩
              rw [ List.isPrefixOf_iff_prefix, List.cons_prefix_cons]
              exact ⟨hp.1, hpt⟩
            · exact ih _ hrest hi

theorem not_infix_replaceAll_of_not {pat rep q : List Char} (hq : q ≠ [])
    (hrep : rep ≠ []) (hdisj : ∀ c ∈ q, c ∉ rep) :
    ∀ l, ¬ (q <:+: l) → ¬ (q <:+: replaceAll pat rep l) := by
  suffices H : ∀ (n : Nat) (l : List Char), l.length ≤ n →
      ¬ (q <:+: l) → ¬ (q <:+: replaceAll pat rep l) from
    fun l => H l.length l Nat.le.refl
  intro n
  induction n with
  | zero =>
      intro l hl hnl hq2
      have : l = [] := List.length_eq_zero.mp (Nat.le_zero.mp hl)
      subst this
      rw [replaceAll_nil, List.infix_nil] at hq2
      exact hq hq2
  | succ n ih =>
      intro l hl hnl hq2
      cases l with
      | nil =>
          rw [replaceAll_nil, List.infix_nil] at hq2
          exact hq hq2
      | cons c rest =>
          have hrest : rest.length ≤ n := by simpa using hl
          by_cases hb : pat ≠ [] ∧ pat.isPrefixOf (c :: rest)
          · rw [replaceAll_pos _ _ _ _ hb] at hq2
            have h2 := infix_append_right_of_disjoint hq hdisj hq2
            have hdroplen := drop_pat_len_le pat hb.1 c rest
            have hnd : ¬ (q <:+: (c :: rest).drop pat.length) := fun hcon =>
              hnl (hcon.trans (List.drop_suffix _ _).isInfix)
            exact ih _ (Nat.le_trans hdroplen hrest) hnd h2
          · rw [replaceAll_neg _ _ _ _ hb] at hq2
            rcases List.infix_cons_iff.mp hq2 with hp | hi
            · obtain ⟨qh, qt, rfl⟩ : ∃ qh qt, q = qh :: qt := by
                cases q with
                | nil => exact absurd rfl hq
                | cons qh qt => exact ⟨qh, qt, rfl⟩
              rw [List.cons_prefix_cons] at hp
              have hdisj' : ∀ d ∈ qt, d ∉ rep := fun d hd =>
                hdisj d (List.mem_cons_of_mem qh hd)
              have hqt := pref_of_pref_replaceAll hrep qt hdisj' rest hp.2
              apply hnl
              apply List.IsPrefix.isInfix
              rw [List.cons_prefix_cons]
              exact ⟨hp.1, hqt⟩
            · have hnr : ¬ (q <:+: rest) := fun hcon => hnl (List.infix_cons hcon)
              exact ih _ hrest hnr hi

/-- C6: the checkbox-normalization step leaves no residual `"[ ]"` or
`"[x]"` token in its result (for every input string), replaces the tokens
`"- [ ]"`/`"[ ]"` by `"☐"` and `"- [x]"`/`"[x]"` by `"☑"` as on the spec's
example, and leaves an uppercase `"[X]"` unchanged. -/
theorem checkbox_normalizes (s : List Char) :
    hasSubstr "[ ]".data (checkbox s) = false ∧
      hasSubstr "[x]".data (checkbox s) = false ∧
      checkbox "- [ ] Buy milk\n- [x] Pay rent".data
        = "☐ Buy milk\n☑ Pay rent".data ∧
      checkbox "- [X] done  [X]".data = "- [X] done  [X]".data := by
  refine ⟨?_, ?_, by decide, by decide⟩
  · have h2 : ¬ ("[ ]".data <:+:
        replaceAll "[ ]".data "☐".data
          (replaceAll "- [ ]".data "☐".data s)) :=
      pat_not_infix_replaceAll (by decide) (by decide) (by decide) _
    have h3 : ¬ ("[ ]".data <:+:
        replaceAll "- [x]".data "☑".data
          (replaceAll "[ ]".data "☐".data
            (replaceAll "- [ ]".data "☐".data s))) :=
      not_infix_replaceAll_of_not (by decide) (by decide) (by decide) _ h2
    have h4 : ¬ ("[ ]".data <:+: checkbox s) :=
      not_infix_replaceAll_of_not (by decide) (by decide) (by decide) _ h3
    rw [← Bool.not_eq_true]
    rw [hasSubstr_iff]
    exact h4
  · have h4 : ¬ ("[x]".data <:+: checkbox s) :=
      pat_not_infix_replaceAll (by decide) (by decide) (by decide) _
    rw [← Bool.not_eq_true]
    rw [hasSubstr_iff]
    exact h4

theorem countOccsF_succ_of_le (pat : List Char) :
    ∀ (fuel : Nat) (l : List Char), l.length ≤ fuel →
      countOccsF pat (fuel + 1) l = countOccsF pat fuel l := by
  intro fuel
  induction fuel with
  | zero =>
      intro l hl
      have : l = [] := List.length_eq_zero.mp (Nat.le_zero.mp hl)
      subst this; rfl
  | succ f ih =>
      intro l hl
      cases l with
      | nil => rfl
      | cons c rest =>
          by_cases h : pat ≠ [] ∧ pat.isPrefixOf (c :: rest)
          · have hdrop : ((c :: rest).drop pat.length).length ≤ f :=
              Nat.le_trans (drop_pat_len_le pat h.1 c rest) (by simpa using hl)
            simp only [countOccsF, if_pos h]
            rw [ih _ hdrop]
          · have hrest : rest.length ≤ f := by simpa using hl
            simp only [countOccsF, if_neg h]
            rw [ih _ hrest]

theorem countOccsF_eq_of_le (pat : List Char) :
    ∀ (fuel : Nat) (l : List Char), l.length ≤ fuel →
      countOccsF pat fuel l = countOccs pat l := by
  intro fuel
  induction fuel with
  | zero =>
      intro l hl
      have : l = [] := List.length_eq_zero.mp (Nat.le_zero.mp hl)
      subst this; rfl
  | succ f ih =>
      intro l hl
      rcases Nat.lt_or_ge l.length (f + 1) with h | h
      · have hle : l.length ≤ f := Nat.lt_succ_iff.mp h
        rw [countOccsF_succ_of_le pat f l hle, ih l hle]
      · have : l.length = f + 1 := Nat.le_antisymm hl h
        rw [countOccs, this]

theorem countOccs_pos (pat : List Char) (c : Char) (rest : List Char)
    (h : pat ≠ [] ∧ pat.isPrefixOf (c :: rest)) :
    countOccs pat (c :: rest) =
      1 + countOccs pat ((c :: rest).drop pat.length) := by
  show countOccsF pat (rest.length + 1) (c :: rest) = _
  simp only [countOccsF, if_pos h]
  rw [countOccsF_eq_of_le pat rest.length _ (drop_pat_len_le pat h.1 c rest)]

theorem countOccs_neg (pat : List Char) (c : Char) (rest : List Char)
    (h : ¬(pat ≠ [] ∧ pat.isPrefixOf (c :: rest))) :
    countOccs pat (c :: rest) = countOccs pat rest := by
  show countOccsF pat (rest.length + 1) (c :: rest) = _
  simp only [countOccsF, if_neg h]
  rfl

theorem ansiBody_suffix : ∀ r r' : List Char, ansiBody r = some r' → r' <:+ r := by
  intro r
  induction r with
  | nil => intro r' h; simp [ansiBody] at h
  | cons c r2 ih =>
      intro r' h
      rw [ansiBody] at h
      by_cases hc : isCsiChar c
      · rw [if_pos hc] at h
        exact (ih r' h).trans (List.suffix_cons c r2)
      · rw [if_neg hc] at h
        by_cases hm : c = 'm'
        · rw [if_pos hm] at h
          injection h with h'
          subst h'
          exact List.suffix_cons c r2
        · rw [if_neg hm] at h
          exact absurd h (by simp)

theorem ansiSplit_suffix : ∀ r r' : List Char, ansiSplit r = some r' → r' <:+ r := by
  intro r r' h
  cases r with
  | nil => simp [ansiSplit] at h
  | cons c r2 =>
      rw [ansiSplit] at h
      by_cases hc : c = '['
      · rw [if_pos hc] at h
        exact (ansiBody_suffix r2 r' h).trans (List.suffix_cons c r2)
      · rw [if_neg hc] at h
        exact absurd h (by simp)

theorem stripAnsiF_succ_of_le :
    ∀ (fuel : Nat) (l : List Char), l.length ≤ fuel →
      stripAnsiF (fuel + 1) l = stripAnsiF fuel l := by
  intro fuel
  induction fuel with
  | zero =>
      intro l hl
      have : l = [] := List.length_eq_zero.mp (Nat.le_zero.mp hl)
      subst this; rfl
  | succ f ih =>
      intro l hl
      cases l with
      | nil => rfl
      | cons c rest =>
          have hrest : rest.length ≤ f := by simpa using hl
          by_cases hc : c = escCh
          · cases hsplit : ansiSplit rest with
            | some r2 =>
                have hr2 : r2.length ≤ f :=
                  Nat.le_trans (ansiSplit_suffix rest r2 hsplit).length_le hrest
                simp only [stripAnsiF, if_pos hc, hsplit]
                exact ih _ hr2
            | none =>
                simp only [stripAnsiF, if_pos hc, hsplit]
                rw [ih _ hrest]
          · simp only [stripAnsiF, if_neg hc]
            rw [ih _ hrest]

theorem stripAnsiF_eq_of_le :
    ∀ (fuel : Nat) (l : List Char), l.length ≤ fuel →
      stripAnsiF fuel l = stripAnsi l := by
  intro fuel
  induction fuel with
  | zero =>
      intro l hl
      have : l = [] := List.length_eq_zero.mp (Nat.le_zero.mp hl)
      subst this; rfl
  | succ f ih =>
      intro l hl
      rcases Nat.lt_or_ge l.length (f + 1) with h | h
      · have hle : l.length ≤ f := Nat.lt_succ_iff.mp h
        rw [stripAnsiF_succ_of_le f l hle, ih l hle]
      · have : l.length = f + 1 := Nat.le_antisymm hl h
        rw [stripAnsi, this]

theorem stripAnsi_esc_some (rest r2 : List Char) (h : ansiSplit rest = some r2) :
    stripAnsi (escCh :: rest) = stripAnsi r2 := by
  show stripAnsiF (rest.length + 1) (escCh :: rest) = _
  simp only [stripAnsiF, if_pos rfl, h]
  exact stripAnsiF_eq_of_le rest.length r2 (ansiSplit_suffix rest r2 h).length_le

theorem stripAnsi_esc_none (rest : List Char) (h : ansiSplit rest = none) :
    stripAnsi (escCh :: rest) = escCh :: stripAnsi rest := by
  show stripAnsiF (rest.length + 1) (escCh :: rest) = _
  simp only [stripAnsiF, if_pos rfl, h, if_true]
  rw [stripAnsiF_eq_of_le rest.length rest Nat.le.refl]

theorem stripAnsi_cons (c : Char) (rest : List Char) (hc : c ≠ escCh) :
    stripAnsi (c :: rest) = c :: stripAnsi rest := by
  show stripAnsiF (rest.length + 1) (c :: rest) = _
  simp only [stripAnsiF, if_neg hc]
  rw [stripAnsiF_eq_of_le rest.length rest Nat.le.refl]

theorem ansiBody_count (d : Char) (hd : isCsiChar d = false) (hm : d ≠ 'm') :
    ∀ r r' : List Char, ansiBody r = some r' →
      List.count d r = List.count d r' := by
  intro r
  induction r with
  | nil => intro r' h; simp [ansiBody] at h
  | cons c r2 ih =>
      intro r' h
      rw [ansiBody] at h
      by_cases hc : isCsiChar c
      · rw [if_pos hc] at h
        have hne : d ≠ c := fun he => by rw [← he] at hc; rw [hd] at hc; exact absurd hc (by simp)
        rw [List.count_cons_of_ne hne, ih r' h]
      · rw [if_neg hc] at h
        by_cases hcm : c = 'm'
        · rw [if_pos hcm] at h
          injection h with h'
          subst h'
          subst hcm
          exact List.count_cons_of_ne hm _
        · rw [if_neg hcm] at h
          exact absurd h (by simp)

theorem ansiSplit_count (d : Char) (hd : isCsiChar d = false) (hm : d ≠ 'm')
    (hbr : d ≠ '[') :
    ∀ r r' : List Char, ansiSplit r = some r' →
      List.count d r = List.count d r' := by
  intro r r' h
  cases r with
  | nil => simp [ansiSplit] at h
  | cons c r2 =>
      rw [ansiSplit] at h
      by_cases hc : c = '['
      · rw [if_pos hc] at h
        subst hc
        rw [List.count_cons_of_ne hbr, ansiBody_count d hd hm r2 r' h]
      · rw [if_neg hc] at h
        exact absurd h (by simp)

theorem stripAnsi_count (d : Char) (hesc : d ≠ escCh) (hbr : d ≠ '[')
    (hd : isCsiChar d = false) (hm : d ≠ 'm') :
    ∀ l : List Char, List.count d (stripAnsi l) = List.count d l := by
  suffices H : ∀ (n : Nat) (l : List Char), l.length ≤ n →
      List.count d (stripAnsi l) = List.count d l from
    fun l => H l.length l Nat.le.refl
  intro n
  induction n with
  | zero =>
      intro l hl
      have : l = [] := List.length_eq_zero.mp (Nat.le_zero.mp hl)
      subst this; rfl
  | succ n ih =>
      intro l hl
      cases l with
      | nil => rfl
      | cons c rest =>
          have hrest : rest.length ≤ n := by simpa using hl
          by_cases hc : c = escCh
          · subst hc
            cases hsplit : ansiSplit rest with
            | some r2 =>
                rw [stripAnsi_esc_some rest r2 hsplit]
                have hr2 : r2.length ≤ n :=
                  Nat.le_trans (ansiSplit_suffix rest r2 hsplit).length_le hrest
                rw [ih r2 hr2, List.count_cons_of_ne hesc,
                  ansiSplit_count d hd hm hbr rest r2 hsplit]
            | none =>
                rw [stripAnsi_esc_none rest hsplit, List.count_cons_of_ne hesc,
                  List.count_cons_of_ne hesc, ih rest hrest]
          · rw [stripAnsi_cons c rest hc]
            by_cases hdc : d = c
            · subst hdc
              rw [List.count_cons_self, List.count_cons_self, ih rest hrest]
            · rw [List.count_cons_of_ne hdc, List.count_cons_of_ne hdc, ih rest hrest]

theorem count_replaceAll (d : Char) (pat rep : List Char)
    (hp : d ∉ pat) (hr : d ∉ rep) :
    ∀ l : List Char, List.count d (replaceAll pat rep l) = List.count d l := by
  suffices H : ∀ (n : Nat) (l : List Char), l.length ≤ n →
      List.count d (replaceAll pat rep l) = List.count d l from
    fun l => H l.length l Nat.le.refl
  intro n
  induction n with
  | zero =>
      intro l hl
      have : l = [] := List.length_eq_zero.mp (Nat.le_zero.mp hl)
      subst this; rfl
  | succ n ih =>
      intro l hl
      cases l with
      | nil => rfl
      | cons c rest =>
          have hrest : rest.length ≤ n := by simpa using hl
          by_cases hb : pat ≠ [] ∧ pat.isPrefixOf (c :: rest)
          · rw [replaceAll_pos _ _ _ _ hb, List.count_append]
            have hrep0 : List.count d rep = 0 := List.count_eq_zero_of_not_mem hr
            have hsplit : pat ++ (c :: rest).drop pat.length = c :: rest :=
              List.prefix_iff_eq_append.mp ( List.isPrefixOf_iff_prefix.mp hb.2)
            have hdl : ((c :: rest).drop pat.length).length ≤ n :=
              Nat.le_trans (drop_pat_len_le pat hb.1 c rest) hrest
            rw [hrep0, ih _ hdl]
            conv_rhs => rw [← hsplit]
            rw [List.count_append, List.count_eq_zero_of_not_mem hp]
          · rw [replaceAll_neg _ _ _ _ hb]
            by_cases hdc : d = c
            · subst hdc
              rw [List.count_cons_self, List.count_cons_self, ih rest hrest]
            · rw [List.count_cons_of_ne hdc, List.count_cons_of_ne hdc, ih rest hrest]

theorem dropNL_count (d : Char) (hd : d ≠ '\n') :
    ∀ l : List Char, List.count d (dropNL l) = List.count d l := by
  intro l
  induction l with
  | nil => rfl
  | cons c rest ih =>
      by_cases hc : c = '\n'
      · subst hc
        rw [dropNL, if_pos rfl, ih, List.count_cons_of_ne hd]
      · rw [dropNL, if_neg hc]

theorem collapse_count (d : Char) (hd : d ≠ '\n') :
    ∀ l : List Char, List.count d (collapse l) = List.count d l := by
  suffices H : ∀ (n : Nat) (l : List Char), l.length ≤ n →
      List.count d (collapse l) = List.count d l from
    fun l => H l.length l Nat.le.refl
  intro n
  induction n with
  | zero =>
      intro l hl
      have : l = [] := List.length_eq_zero.mp (Nat.le_zero.mp hl)
      subst this; rfl
  | succ n ih =>
      intro l hl
      cases l with
      | nil => rfl
      | cons c rest =>
          have hrest : rest.length ≤ n := by simpa using hl
          by_cases hc : c = '\n'
          · subst hc
            rw [collapse_cons_nl rest, List.count_append]
            have h0 : List.count d (List.replicate (min (countNL rest + 1) 2) '\n') = 0 := by
              apply List.count_eq_zero_of_not_mem
              intro hm
              rw [List.mem_replicate] at hm
              exact hd hm.2
            have hdl : (dropNL rest).length ≤ n :=
              Nat.le_trans (dropNL_length_le rest) hrest
            rw [h0, ih _ hdl, dropNL_count d hd, List.count_cons_of_ne hd]
            omega
          · rw [collapse_cons c rest hc]
            by_cases hdc : d = c
            · subst hdc
              rw [List.count_cons_self, List.count_cons_self, ih rest hrest]
            · rw [List.count_cons_of_ne hdc, List.count_cons_of_ne hdc, ih rest hrest]

theorem count_dropWhile (p : Char → Bool) (d : Char) (hpd : p d = false)
    (l : List Char) : List.count d (l.dropWhile p) = List.count d l := by
  conv_rhs => rw [← List.takeWhile_append_dropWhile p l]
  rw [List.count_append]
  have h0 : List.count d (l.takeWhile p) = 0 := by
    apply List.count_eq_zero_of_not_mem
    intro hm
    have := List.mem_takeWhile_imp hm
    rw [hpd] at this
    exact absurd this (by simp)
  omega

theorem count_pyStrip (d : Char) (hd : pyIsSpace d = false) (l : List Char) :
    List.count d (pyStrip l) = List.count d l := by
  unfold pyStrip
  rw [List.count_reverse, count_dropWhile _ _ hd, List.count_reverse,
    count_dropWhile _ _ hd]

theorem count_ensureNL (d : Char) (hd : d ≠ '\n') (l : List Char) :
    List.count d (ensureNL l) = List.count d l := by
  unfold ensureNL
  by_cases h : l.getLast? = some '\n'
  · rw [if_pos h]
  · rw [if_neg h, List.count_append]
    have : List.count d ['\n'] = 0 := by
      apply List.count_eq_zero_of_not_mem
      simpa using hd
    omega

theorem count_checkbox_bullet (l : List Char) :
    List.count '•' (checkbox l) = List.count '•' l := by
  unfold checkbox
  rw [count_replaceAll '•' _ _ (by decide) (by decide),
    count_replaceAll '•' _ _ (by decide) (by decide),
    count_replaceAll '•' _ _ (by decide) (by decide),
    count_replaceAll '•' _ _ (by decide) (by decide)]

theorem pairOk_nil : pairOk [] = true := rfl

theorem pairOk_cons (c : Char) (rest : List Char) :
    pairOk (c :: rest) =
      ((c != '•' || rest.head? == some ' ') && pairOk rest) := rfl

theorem pairOk_append (a b : List Char) (ha : pairOk a = true)
    (hb : pairOk b = true)
    (hab : a.getLast? = some '•' → b.head? = some ' ') :
    pairOk (a ++ b) = true := by
  induction a with
  | nil => simpa using hb
  | cons c a' ih =>
      rw [pairOk_cons, Bool.and_eq_true] at ha
      obtain ⟨ha1, ha2⟩ := ha
      rw [List.cons_append, pairOk_cons, Bool.and_eq_true]
      constructor
      · rw [Bool.or_eq_true] at ha1 ⊢
        rcases ha1 with h1 | h1
        · exact Or.inl h1
        · right
          cases a' with
          | nil => simp at h1
          | cons d a'' =>
              have hd : d = ' ' := by simpa using h1
              simp [hd]
      · apply ih ha2
        intro hlast
        apply hab
        cases a' with
        | nil => simp at hlast
        | cons d a'' =>
            rw [List.getLast?_cons_cons]
            exact hlast

theorem pairOk_append_right (a b : List Char) (h : pairOk (a ++ b) = true) :
    pairOk b = true := by
  induction a with
  | nil => simpa using h
  | cons c a' ih =>
      rw [List.cons_append, pairOk_cons, Bool.and_eq_true] at h
      exact ih h.2

theorem pairOk_suffix (l' l : List Char) (hs : l' <:+ l)
    (h : pairOk l = true) : pairOk l' = true := by
  obtain ⟨pre, rfl⟩ := hs
  exact pairOk_append_right pre l' h

theorem pairOk_of_not_mem (l : List Char) (h : '•' ∉ l) : pairOk l = true := by
  induction l with
  | nil => rfl
  | cons c rest ih =>
      have hc : c ≠ '•' := fun he => h (he ▸ List.mem_cons_self c rest)
      have hrest : '•' ∉ rest := fun hm => h (List.mem_cons_of_mem c hm)
      rw [pairOk_cons, Bool.and_eq_true]
      refine ⟨?_, ih hrest⟩
      rw [Bool.or_eq_true]
      left
      simpa using hc

theorem pairOk_no_last (l : List Char) (h : pairOk l = true) :
    l.getLast? ≠ some '•' := by
  induction l with
  | nil => simp
  | cons c rest ih =>
      rw [pairOk_cons, Bool.and_eq_true] at h
      cases rest with
      | nil =>
          have h1 := h.1
          simp only [List.head?_nil] at h1
          have hc : c ≠ '•' := by
            rcases Bool.or_eq_true _ _ |>.mp h1 with h2 | h2
            · simpa using h2
            · simp at h2
          simpa using hc
      | cons d rest' =>
          rw [List.getLast?_cons_cons]
          exact ih h.2

theorem replaceAll_head_space (pat rep : List Char)
    (hpat : pat.head? ≠ some ' ') (l : List Char) (hl : l.head? = some ' ') :
    (replaceAll pat rep l).head? = some ' ' := by
  cases l with
  | nil => simp at hl
  | cons c rest =>
      have hc : c = ' ' := by simpa using hl
      subst hc
      have hneg : ¬(pat ≠ [] ∧ pat.isPrefixOf (' ' :: rest)) := by
        rintro ⟨hne, hp⟩
        rw [ List.isPrefixOf_iff_prefix] at hp
        obtain ⟨ph, pt, rfl⟩ : ∃ ph pt, pat = ph :: pt := by
          cases pat with
          | nil => exact absurd rfl hne
          | cons ph pt => exact ⟨ph, pt, rfl⟩
        rw [List.cons_prefix_cons] at hp
        apply hpat
        rw [List.head?_cons, hp.1]
      rw [replaceAll_neg _ _ _ _ hneg]
      rfl

theorem stripAnsi_head_space (l : List Char) (hl : l.head? = some ' ') :
    (stripAnsi l).head? = some ' ' := by
  cases l with
  | nil => simp at hl
  | cons c rest =>
      have hc : c = ' ' := by simpa using hl
      subst hc
      rw [stripAnsi_cons ' ' rest (by decide)]
      rfl

theorem collapse_head_space (l : List Char) (hl : l.head? = some ' ') :
    (collapse l).head? = some ' ' := by
  cases l with
  | nil => simp at hl
  | cons c rest =>
      have hc : c = ' ' := by simpa using hl
      subst hc
      rw [collapse_cons ' ' rest (by decide)]
      rfl

theorem pairOk_replaceAll (pat rep : List Char) (hpat : pat.head? ≠ some ' ')
    (hr : '•' ∉ rep) :
    ∀ l, pairOk l = true → pairOk (replaceAll pat rep l) = true := by
  suffices H : ∀ (n : Nat) (l : List Char), l.length ≤ n → pairOk l = true →
      pairOk (replaceAll pat rep l) = true from
    fun l => H l.length l Nat.le.refl
  intro n
  induction n with
  | zero =>
      intro l hl _
      have : l = [] := List.length_eq_zero.mp (Nat.le_zero.mp hl)
      subst this; rfl
  | succ n ih =>
      intro l hl hok
      cases l with
      | nil => rfl
      | cons c rest =>
          have hrest : rest.length ≤ n := by simpa using hl
          rw [pairOk_cons, Bool.and_eq_true] at hok
          obtain ⟨h1, h2⟩ := hok
          by_cases hb : pat ≠ [] ∧ pat.isPrefixOf (c :: rest)
          · rw [replaceAll_pos _ _ _ _ hb]
            apply pairOk_append _ _ (pairOk_of_not_mem rep hr)
            · apply ih _ (Nat.le_trans (drop_pat_len_le pat hb.1 c rest) hrest)
              exact pairOk_suffix _ _ (List.drop_suffix _ _)
                (by rw [pairOk_cons, Bool.and_eq_true]; exact ⟨h1, h2⟩)
            · intro hlast
              exact absurd (List.mem_of_getLast?_eq_some hlast) hr
          · rw [replaceAll_neg _ _ _ _ hb]
            rw [pairOk_cons, Bool.and_eq_true]
            refine ⟨?_, ih rest hrest h2⟩
            rw [Bool.or_eq_true] at h1 ⊢
            rcases h1 with h1 | h1
            · exact Or.inl h1
            · right
              have hr2 : rest.head? = some ' ' := by simpa using h1
              have := replaceAll_head_space pat rep hpat rest hr2
              simp [this]

theorem pairOk_stripAnsi :
    ∀ l, pairOk l = true → pairOk (stripAnsi l) = true := by
  suffices H : ∀ (n : Nat) (l : List Char), l.length ≤ n → pairOk l = true →
      pairOk (stripAnsi l) = true from
    fun l => H l.length l Nat.le.refl
  intro n
  induction n with
  | zero =>
      intro l hl _
      have : l = [] := List.length_eq_zero.mp (Nat.le_zero.mp hl)
      subst this; rfl
  | succ n ih =>
      intro l hl hok
      cases l with
      | nil => rfl
      | cons c rest =>
          have hrest : rest.length ≤ n := by simpa using hl
          rw [pairOk_cons, Bool.and_eq_true] at hok
          obtain ⟨h1, h2⟩ := hok
          by_cases hc : c = escCh
          · subst hc
            cases hsplit : ansiSplit rest with
            | some r2 =>
                rw [stripAnsi_esc_some rest r2 hsplit]
                apply ih r2
                  (Nat.le_trans (ansiSplit_suffix rest r2 hsplit).length_le hrest)
                exact pairOk_suffix _ _ (ansiSplit_suffix rest r2 hsplit) h2
            | none =>
                rw [stripAnsi_esc_none rest hsplit]
                rw [pairOk_cons, Bool.and_eq_true]
                refine ⟨?_, ih rest hrest h2⟩
                rw [Bool.or_eq_true] at h1 ⊢
                rcases h1 with h1 | h1
                · exact Or.inl h1
                · right
                  have hr2 : rest.head? = some ' ' := by simpa using h1
                  have := stripAnsi_head_space rest hr2
                  simp [this]
          · rw [stripAnsi_cons c rest hc]
            rw [pairOk_cons, Bool.and_eq_true]
            refine ⟨?_, ih rest hrest h2⟩
            rw [Bool.or_eq_true] at h1 ⊢
            rcases h1 with h1 | h1
            · exact Or.inl h1
            · right
              have hr2 : rest.head? = some ' ' := by simpa using h1
              have := stripAnsi_head_space rest hr2
              simp [this]

theorem dropNL_suffix : ∀ l : List Char, dropNL l <:+ l := by
  intro l
  induction l with
  | nil => simp [dropNL]
  | cons c rest ih =>
      by_cases hc : c = '\n'
      · rw [dropNL, if_pos hc]
        exact ih.trans (List.suffix_cons c rest)
      · rw [dropNL, if_neg hc]

theorem pairOk_collapse :
    ∀ l, pairOk l = true → pairOk (collapse l) = true := by
  suffices H : ∀ (n : Nat) (l : List Char), l.length ≤ n → pairOk l = true →
      pairOk (collapse l) = true from
    fun l => H l.length l Nat.le.refl
  intro n
  induction n with
  | zero =>
      intro l hl _
      have : l = [] := List.length_eq_zero.mp (Nat.le_zero.mp hl)
      subst this; rfl
  | succ n ih =>
      intro l hl hok
      cases l with
      | nil => rfl
      | cons c rest =>
          have hrest : rest.length ≤ n := by simpa using hl
          rw [pairOk_cons, Bool.and_eq_true] at hok
          obtain ⟨h1, h2⟩ := hok
          by_cases hc : c = '\n'
          · subst hc
            rw [collapse_cons_nl rest]
            apply pairOk_append
            · apply pairOk_of_not_mem
              intro hm
              rw [List.mem_replicate] at hm
              exact absurd hm.2 (by decide)
            · exact ih _ (Nat.le_trans (dropNL_length_le rest) hrest)
                (pairOk_suffix _ _ (dropNL_suffix rest) h2)
            · intro hlast
              have := List.mem_of_getLast?_eq_some hlast
              rw [List.mem_replicate] at this
              exact absurd this.2 (by decide)
          · rw [collapse_cons c rest hc]
            rw [pairOk_cons, Bool.and_eq_true]
            refine ⟨?_, ih rest hrest h2⟩
            rw [Bool.or_eq_true] at h1 ⊢
            rcases h1 with h1 | h1
            · exact Or.inl h1
            · right
              have hr2 : rest.head? = some ' ' := by simpa using h1
              have := collapse_head_space rest hr2
              simp [this]

theorem pairOk_ensureNL (l : List Char) (h : pairOk l = true) :
    pairOk (ensureNL l) = true := by
  unfold ensureNL
  by_cases hl : l.getLast? = some '\n'
  · rw [if_pos hl]; exact h
  · rw [if_neg hl]
    apply pairOk_append l ['\n'] h (by decide)
    intro hlast
    exact absurd hlast (pairOk_no_last l h)

theorem pairOk_pref :
    ∀ (l' l : List Char), pairOk l = true → l' <+: l →
      l'.getLast? ≠ some '•' → pairOk l' = true := by
  intro l'
  induction l' with
  | nil => intro l _ _ _; rfl
  | cons c l'' ih =>
      intro l hl hpref hlast
      cases l with
      | nil =>
          rw [List.prefix_nil] at hpref
          exact absurd hpref (by simp)
      | cons d lt =>
          rw [List.cons_prefix_cons] at hpref
          obtain ⟨hcd, hp2⟩ := hpref
          subst hcd
          rw [pairOk_cons, Bool.and_eq_true] at hl
          obtain ⟨h1, h2⟩ := hl
          rw [pairOk_cons, Bool.and_eq_true]
          constructor
          · by_cases hc : c = '•'
            · subst hc
              rw [Bool.or_eq_true] at h1 ⊢
              rcases h1 with h1 | h1
              · simp at h1
              · right
                have hsp : lt.head? = some ' ' := by simpa using h1
                cases l'' with
                | nil => exact absurd rfl hlast
                | cons e l''' =>
                    cases lt with
                    | nil => simp at hsp
                    | cons f lt' =>
                        have hf : f = ' ' := by simpa using hsp
                        rw [List.cons_prefix_cons] at hp2
                        have he : e = ' ' := hp2.1.trans hf
                        simp [he]
            · rw [Bool.or_eq_true]
              left
              simpa using hc
          · apply ih lt h2 hp2
            cases l'' with
            | nil => simp
            | cons e l''' =>
                rw [List.getLast?_cons_cons] at hlast
                exact hlast

theorem pyStrip_pref (l : List Char) : pyStrip l <+: l.dropWhile pyIsSpace := by
  unfold pyStrip
  have h1 := (List.dropWhile_suffix
    (l := (l.dropWhile pyIsSpace).reverse) pyIsSpace).reverse
  simpa using h1

mutual

theorem pairOk_extractNode (n : Node) (h : pureList n = true) :
    pairOk (extractNode n) = true := by
  cases n with
  | text s =>
      apply pairOk_of_not_mem
      simp only [pureList, decide_eq_true_eq] at h
      exact h
  | li cs =>
      show pairOk ('•' :: ' ' :: (extractList cs ++ ['\n'])) = true
      rw [pairOk_cons, Bool.and_eq_true]
      constructor
      · simp
      · rw [pairOk_cons, Bool.and_eq_true]
        constructor
        · simp
        · have hcs : pairOk (extractList cs) = true := by
            apply pairOk_extractList
            simpa [pureList] using h
          apply pairOk_append _ _ hcs (by decide)
          intro hlast
          exact absurd hlast (pairOk_no_last _ hcs)
  | elem cs =>
      show pairOk (extractList cs) = true
      apply pairOk_extractList
      simpa [pureList] using h
  | heading inls => simp [pureList] at h
  | table thead body => simp [pureList] at h

theorem pairOk_extractList (ns : List Node) (h : pureListAll ns = true) :
    pairOk (extractList ns) = true := by
  cases ns with
  | nil => rfl
  | cons n ns' =>
      simp only [pureListAll, Bool.and_eq_true] at h
      show pairOk (extractNode n ++ extractList ns') = true
      have hn := pairOk_extractNode n h.1
      exact pairOk_append _ _ hn (pairOk_extractList ns' h.2)
        (fun hlast => absurd hlast (pairOk_no_last _ hn))

end

mutual

theorem bullets_extractNode (n : Node) (h : pureList n = true) :
    List.count '•' (extractNode n) = liCount n := by
  cases n with
  | text s =>
      show List.count '•' s = 0
      apply List.count_eq_zero_of_not_mem
      simp only [pureList, decide_eq_true_eq] at h
      exact h
  | li cs =>
      show List.count '•' ('•' :: ' ' :: (extractList cs ++ ['\n'])) = 1 + liCountList cs
      rw [List.count_cons_self, List.count_cons_of_ne (by decide),
        List.count_append]
      rw [bullets_extractList cs (by simpa [pureList] using h)]
      have : List.count '•' ['\n'] = 0 := by decide
      omega
  | elem cs =>
      show List.count '•' (extractList cs) = liCountList cs
      exact bullets_extractList cs (by simpa [pureList] using h)
  | heading inls => simp [pureList] at h
  | table thead body => simp [pureList] at h

theorem bullets_extractList (ns : List Node) (h : pureListAll ns = true) :
    List.count '•' (extractList ns) = liCountList ns := by
  cases ns with
  | nil => rfl
  | cons n ns' =>
      simp only [pureListAll, Bool.and_eq_true] at h
      show List.count '•' (extractNode n ++ extractList ns') = liCount n + liCountList ns'
      rw [List.count_append, bullets_extractNode n h.1,
        bullets_extractList ns' h.2]

end

theorem countOccs_pair :
    ∀ l, pairOk l = true → countOccs "• ".data l = List.count '•' l := by
  suffices H : ∀ (n : Nat) (l : List Char), l.length ≤ n → pairOk l = true →
      countOccs "• ".data l = List.count '•' l from
    fun l => H l.length l Nat.le.refl
  intro n
  induction n with
  | zero =>
      intro l hl _
      have : l = [] := List.length_eq_zero.mp (Nat.le_zero.mp hl)
      subst this; rfl
  | succ n ih =>
      intro l hl hok
      cases l with
      | nil => rfl
      | cons c rest =>
          rw [pairOk_cons, Bool.and_eq_true] at hok
          obtain ⟨h1, h2⟩ := hok
          by_cases hc : c = '•'
          · subst hc
            have hsp : rest.head? = some ' ' := by
              rw [Bool.or_eq_true] at h1
              rcases h1 with h1 | h1
              · simp at h1
              · simpa using h1
            cases rest with
            | nil => simp at hsp
            | cons f r2 =>
                have hf : f = ' ' := by simpa using hsp
                subst hf
                have hpos : ("• ".data ≠ []) ∧
                    "• ".data.isPrefixOf ('•' :: ' ' :: r2) := by
                  refine ⟨by decide, ?_⟩
                  rw [ List.isPrefixOf_iff_prefix]
                  exact ⟨r2, rfl⟩
                rw [countOccs_pos _ _ _ hpos]
                rw [show ('•' :: ' ' :: r2).drop ("• ".data).length = r2 from rfl]
                have hr2 : pairOk r2 = true := by
                  rw [pairOk_cons, Bool.and_eq_true] at h2
                  exact h2.2
                have hlen : r2.length ≤ n := by
                  simp only [List.length_cons] at hl
                  omega
                rw [ih r2 hlen hr2]
                rw [List.count_cons_self, List.count_cons_of_ne (by decide)]
                omega
          · have hneg : ¬(("• ".data ≠ []) ∧
                "• ".data.isPrefixOf (c :: rest)) := by
              rintro ⟨-, hp⟩
              rw [ List.isPrefixOf_iff_prefix, List.cons_prefix_cons] at hp
              exact hc hp.1.symm
            rw [countOccs_neg _ _ _ hneg]
            rw [List.count_cons_of_ne (fun he => hc he.symm)]
            exact ih rest (by simpa using hl) h2

/-- C9 (counterexample): the tree whose only node is an empty `listItem` is
list-only content with one `listItem`, but the renderer returns the single
character `"•"` — the final `strip()` removes the marker's trailing space
(the extracted text is `"• \n"`), so the output contains zero `"• "`
markers, refuting the claim. -/
theorem bullet_marker_count_counterexample :
    pureListAll [Node.li []] = true ∧
      liCountList [Node.li []] = 1 ∧
      markdown_to_plain_text [Node.li []] = ['•'] ∧
      countOccs "• ".data (markdown_to_plain_text [Node.li []]) = 0 := by
  refine ⟨by decide, by decide, by decide, by decide⟩

/-- C9 (amended): for any tree with only list content whose text leaves do
not contain the bullet character `'•'` themselves, and whose rendered output
does not end in a bare `'•'` (i.e. the final trim did not eat the last
marker's space), the number of `"• "` markers in the rendered output equals
the total number of `listItem` nodes, nested items counted exactly once. -/
theorem bullet_marker_count_amended (doc : List Node)
    (h1 : pureListAll doc = true)
    (h2 : (markdown_to_plain_text doc).getLast? ≠ some '•') :
    countOccs "• ".data (markdown_to_plain_text doc) = liCountList doc := by
  have pe : pairOk (extractList doc) = true := pairOk_extractList doc h1
  have pc : pairOk (checkbox (extractList doc)) = true := by
    unfold checkbox
    apply pairOk_replaceAll _ _ (by decide) (by decide)
    apply pairOk_replaceAll _ _ (by decide) (by decide)
    apply pairOk_replaceAll _ _ (by decide) (by decide)
    apply pairOk_replaceAll _ _ (by decide) (by decide)
    exact pe
  have pa : pairOk (stripAnsi (checkbox (extractList doc))) = true :=
    pairOk_stripAnsi _ pc
  have pl : pairOk (collapse (stripAnsi (checkbox (extractList doc)))) = true :=
    pairOk_collapse _ pa
  have pn : pairOk
      (ensureNL (collapse (stripAnsi (checkbox (extractList doc))))) = true :=
    pairOk_ensureNL _ pl
  have hfinal : markdown_to_plain_text doc =
      pyStrip (ensureNL (collapse (stripAnsi (checkbox (extractList doc))))) := rfl
  have pdw : pairOk
      ((ensureNL (collapse (stripAnsi (checkbox
        (extractList doc))))).dropWhile pyIsSpace) = true :=
    pairOk_suffix _ _ (List.dropWhile_suffix pyIsSpace) pn
  have pstrip : pairOk (pyStrip (ensureNL (collapse (stripAnsi (checkbox
      (extractList doc)))))) = true := by
    apply pairOk_pref _ _ pdw (pyStrip_pref _)
    rw [← hfinal]
    exact h2
  rw [hfinal, countOccs_pair _ pstrip, count_pyStrip '•' (by decide),
    count_ensureNL '•' (by decide), collapse_count '•' (by decide),
    stripAnsi_count '•' (by decide) (by decide) (by decide) (by decide),
    count_checkbox_bullet]
  exact bullets_extractList doc h1

/-- Witness for `bullet_marker_count_amended` on the single-item list
`[li [text "Eggs"]]`, rendered `"• Eggs"`. -/
theorem bullet_marker_count_amended_witness :
    pureListAll [Node.li [Node.text "Eggs".data]] = true ∧
      (markdown_to_plain_text [Node.li [Node.text "Eggs".data]]).getLast?
        ≠ some '•' ∧
      countOccs "• ".data
          (markdown_to_plain_text [Node.li [Node.text "Eggs".data]]) =
        liCountList [Node.li [Node.text "Eggs".data]] :=
  ⟨by decide, by decide,
    bullet_marker_count_amended [Node.li [Node.text "Eggs".data]]
      (by decide) (by decide)⟩
